import Mathlib

/-!
# Verification of the cube-tui timing core

Shallow embedding of the timing state machine, statistics engine and
adaptive-rate event loop of the cube-tui application, together with proofs
of the specified properties.

Conventions of the embedding:
* monotonic instants and durations are natural numbers of nanoseconds;
  `Instant::elapsed` becomes truncated subtraction `now - v`, matching the
  saturating behaviour of the Rust clock API under a monotonic clock;
* solve times handed to the statistics engine are rationals (seconds);
* fallible operations return `Option`.

The struct `CubeTimer` with fields `starttime`, `on`, `lasttime` and the
operations `space_press`, `timer_on`, `timer_off`, `elapsed`, `text` are
translated from `src/timer.rs`.  The event loop `run` of `src/ui/mod.rs` is
translated as a per-iteration step function `run_iter`.  The `App` container
and its statistics routine `gen_stats` live in `src/app.rs`, which is not
among the sources; those parts are modelled from the spec and are marked as
such in their doc comments.
-/

namespace CubeTui

/-- The stopwatch state of `src/timer.rs` (`struct CubeTimer`): an optional
start instant, the on/off flag, and the duration of the last completed
interval (nanoseconds). -/
structure CubeTimer where
  starttime : Option Nat
  «on» : Bool
  lasttime : Nat
deriving DecidableEq, Repr

/-- `CubeTimer::default()`: stopped, no start instant, zero last duration. -/
def CubeTimer.default : CubeTimer :=
  { starttime := none, «on» := false, lasttime := 0 }

/-- `CubeTimer::timer_on`: set `on = true` and record the current instant. -/
def timer_on (s : CubeTimer) (now : Nat) : CubeTimer :=
  { s with «on» := true, starttime := some now }

/-- `CubeTimer::elapsed`: time since `starttime`, or zero when stopped. -/
def elapsed (s : CubeTimer) (now : Nat) : Nat :=
  match s.starttime with
  | some v => now - v
  | none => 0

/-- `CubeTimer::timer_off`: set `on = false`, store the elapsed time in
`lasttime` (computed while `starttime` is still set), then clear
`starttime`. -/
def timer_off (s : CubeTimer) (now : Nat) : CubeTimer :=
  { s with «on» := false, lasttime := elapsed s now, starttime := none }

/-- `CubeTimer::space_press` as written in `src/timer.rs`: dispatch on `on`
to `timer_on` / `timer_off`.  In the source this method returns the unit
type; the embedding accordingly returns only the successor state. -/
def space_press (s : CubeTimer) (now : Nat) : CubeTimer :=
  match s.«on» with
  | false => timer_on s now
  | true => timer_off s now

/-- The stopwatch invariant: the start instant is present iff `on` holds. -/
def startInv (s : CubeTimer) : Prop :=
  s.starttime.isSome = s.«on»

instance (s : CubeTimer) : Decidable (startInv s) := by
  unfold startInv; infer_instance

/-- Iterate `space_press` over a list of instants. -/
def toggles (s : CubeTimer) (nows : List Nat) : CubeTimer :=
  nows.foldl space_press s

/-- Modelled from the spec: the record type produced for each completed
solve (`time`, `ao5`, `ao12`).  Its declaration lives in `src/app.rs`, which
is not among the sources; the fields are those read by `render_times` in
`src/ui/mod.rs` (`t.time`, `t.ao5`, `t.ao12`).  Times are rationals in
seconds. -/
structure SolveRecord where
  time : ℚ
  ao5 : Option ℚ
  ao12 : Option ℚ
deriving DecidableEq, Repr

/-- The `n` most recent entries of a chronologically ordered list (newest
last). -/
def lastN (n : Nat) (l : List ℚ) : List ℚ := l.drop (l.length - n)

/-- Arithmetic mean of a list of rationals. -/
def mean (l : List ℚ) : ℚ := l.sum / l.length

/-- Modelled from the spec: sort the window, drop the single minimum (head
of the sorted list) and the single maximum (last of the sorted list), and
average the remaining values. -/
def trimMean (w : List ℚ) : ℚ :=
  mean ((w.insertionSort (· ≤ ·)).tail.dropLast)

/-- Modelled from the spec: the average-of-`n` over a full history `all`
(newest time last); empty until at least `n` times exist, otherwise the
trimmed mean of the `n` most recent times. -/
def aoN (n : Nat) (all : List ℚ) : Option ℚ :=
  if n ≤ all.length then some (trimMean (lastN n all)) else none

/-- Modelled from the spec: the statistics routine `gen_stats` called at
`src/ui/mod.rs` line 31 on the new record, with the history as it existed
immediately before insertion; its body lives in the missing `src/app.rs`.
The window for each average is the prior times followed by the new time. -/
def gen_stats (t : ℚ) (times : List SolveRecord) : SolveRecord :=
  let all := (times.map SolveRecord.time) ++ [t]
  { time := t, ao5 := aoN 5 all, ao12 := aoN 12 all }

/-- `Duration::from_millis`, in nanoseconds. -/
def from_millis (ms : Nat) : Nat := ms * 1000000

/-- `Duration::as_secs_f32` on a nanosecond duration, modelled exactly as
the rational number of seconds. -/
def as_secs (d : Nat) : ℚ := (d : ℚ) / 1000000000

/-- Modelled from the spec: the toggle as consumed by the event loop
(`src/ui/mod.rs` line 29 matches `Some`/`None` on it): on stopped→running
it starts the timer and reports the sentinel `none`; on running→stopped it
stops the timer and reports `some` of the newly stopped elapsed duration.
The state transitions are those of `space_press` in `src/timer.rs`; only
the return value is missing from the sources (see
`space_press_returns_no_duration`). -/
def toggle (s : CubeTimer) (now : Nat) : CubeTimer × Option Nat :=
  match s.«on» with
  | false => (timer_on s now, none)
  | true => (timer_off s now, some (elapsed s now))

/-- The key codes distinguished by the event loop of `src/ui/mod.rs`:
`q`, space, Esc, Enter, `h`, `j`, `k`, `l`, and the wildcard arm. -/
inductive KeyCode where
  | q
  | space
  | esc
  | enter
  | h
  | j
  | k
  | l
  | other
deriving DecidableEq, Repr

/-- The core application state threaded through the event loop: the
stopwatch, the solve history (`app.times`, newest last) and the scheduler's
heartbeat interval `app.tick_rate` (nanoseconds).  The container `App`
lives in the missing `src/app.rs`; these are exactly the fields the loop
in `src/ui/mod.rs` reads and writes, excluding the presentation and
navigation fields (`route`, `pos`, `times_state`). -/
structure App where
  timer : CubeTimer
  times : List SolveRecord
  tick_rate : Nat
deriving DecidableEq, Repr

/-- Modelled from the spec: `App::new(tick_rate)` (missing `src/app.rs`)
creates the session state with a stopped default timer, an empty history,
and the given initial tick rate. -/
def App.new (tick_rate : Nat) : App :=
  { timer := CubeTimer.default, times := [], tick_rate := tick_rate }

/-- Modelled from the spec: the heartbeat `App::on_tick` (missing
`src/app.rs`); its effects are owned by the excluded presentation layer,
so on the core state it is the identity. -/
def on_tick (a : App) : App := a

/-- The key-handling `match` of the event loop (`src/ui/mod.rs` lines
27–44): `q` quits; space toggles the timer and, when a solve completed,
computes the statistics for the new record against the history as it
existed before insertion, appends it and slows the tick rate to 1000 ms,
while a start speeds it to 100 ms; the remaining keys are delegated to the
excluded navigation layer and leave the core state unchanged (modelled
from the spec for `esc`/`enter`/`mv`, whose bodies are in the missing
`src/app.rs`).  Returns the new state and whether the loop returns. -/
def press_key (a : App) (key : KeyCode) (now : Nat) : App × Bool :=
  match key with
  | .q => (a, true)
  | .space =>
    match toggle a.timer now with
    | (tm, some d) =>
      let t := gen_stats (as_secs d) a.times
      (⟨tm, a.times ++ [t], from_millis 1000⟩, false)
    | (tm, none) =>
      ({ a with timer := tm, tick_rate := from_millis 100 }, false)
  | _ => (a, false)

/-- The input phase of one iteration: nothing happens when the poll
reported no event, otherwise the observed key is handled. -/
def apply_input (a : App) (ev : Option KeyCode) (now : Nat) : App × Bool :=
  match ev with
  | none => (a, false)
  | some key => press_key a key now

/-- `Duration::checked_sub`: `none` when the subtrahend exceeds the
minuend. -/
def checked_sub (a b : Nat) : Option Nat :=
  if b ≤ a then some (a - b) else none

/-- The externally visible phases of one loop iteration, in the order they
are emitted: the redraw, the input handling, and the heartbeat. -/
inductive Action where
  | draw
  | input
  | tick
deriving DecidableEq, Repr

/-- The loop-local state of `run`: the application state plus `last_tick`.
-/
structure LoopState where
  app : App
  last_tick : Nat
deriving DecidableEq, Repr

/-- The outcome of one loop iteration: successor state, whether `run`
returned, the timeout passed to `event::poll`, and the ordered trace of
the phases that executed. -/
structure IterResult where
  state : LoopState
  quit : Bool
  timeout : Nat
  trace : List Action
deriving DecidableEq, Repr

/-- One iteration of the loop body of `run` (`src/ui/mod.rs` lines 18–51).
`nowPoll` is the instant at which `last_tick.elapsed()` is read for the
timeout, `ev` the result of the poll (`none` when it timed out), `nowKey`
the instant at which a space press is handled, and `nowTick` the instant
of the heartbeat check.  A `q` key makes `run` return before the heartbeat
check; otherwise the heartbeat fires exactly when the elapsed time since
`last_tick` has reached the (possibly just updated) tick rate, and then
`last_tick` is reset. -/
def run_iter (s : LoopState) (nowPoll : Nat) (ev : Option KeyCode)
    (nowKey : Nat) (nowTick : Nat) : IterResult :=
  let timeout := (checked_sub s.app.tick_rate (nowPoll - s.last_tick)).getD 0
  let inputTrace := match ev with
    | some _ => [Action.input]
    | none => []
  let res := apply_input s.app ev nowKey
  if res.2 then
    ⟨⟨res.1, s.last_tick⟩, true, timeout, Action.draw :: inputTrace⟩
  else if res.1.tick_rate ≤ nowTick - s.last_tick then
    ⟨⟨on_tick res.1, nowTick⟩, false, timeout,
      Action.draw :: inputTrace ++ [Action.tick]⟩
  else
    ⟨⟨res.1, s.last_tick⟩, false, timeout, Action.draw :: inputTrace⟩

/-- The loop states reachable by `run`: the initial state built at
`src/ui/mod.rs` line 16 (`App::new(Duration::from_millis(1000))`, with an
arbitrary initial `last_tick`), closed under iterations from which the
loop did not return. -/
inductive Reachable : LoopState → Prop where
  | init (now0 : Nat) : Reachable ⟨App.new (from_millis 1000), now0⟩
  | step {s : LoopState} (nowPoll : Nat) (ev : Option KeyCode)
      (nowKey nowTick : Nat) (h : Reachable s)
      (hq : (run_iter s nowPoll ev nowKey nowTick).quit = false) :
      Reachable (run_iter s nowPoll ev nowKey nowTick).state

/-- The decimal digit character for a digit `d < 10`. -/
def digitChar (d : Nat) : Char := Char.ofNat (48 + d)

/-- The base-10 digits of `n`, most significant first. -/
def digits10 (n : Nat) : List Nat :=
  if _h : n < 10 then [n]
  else digits10 (n / 10) ++ [n % 10]
termination_by n
decreasing_by
  exact Nat.div_lt_self (by omega) (by omega)

/-- Rust's `format!` with precision `p` applied to a nanosecond duration
read as seconds (`{:.1}` / `{:.3}` on `as_secs_f32` in `CubeTimer::text`),
modelled with exact arithmetic: round half up at the `p`-th decimal and
print the integer part, a dot, and exactly `p` zero-padded fractional
digits. -/
def fmtSecs (p : Nat) (nanos : Nat) : String :=
  let scale := 10 ^ (9 - p)
  let scaled := (nanos + scale / 2) / scale
  String.mk ((digits10 (scaled / 10 ^ p)).map digitChar) ++ "." ++
    String.mk ((List.replicate (p - (digits10 (scaled % 10 ^ p)).length) 0 ++
      digits10 (scaled % 10 ^ p)).map digitChar)

/-- `CubeTimer::text`: while running (start instant present), the live
elapsed time since `starttime` to one decimal place; while stopped,
`lasttime` to three decimal places. -/
def text (s : CubeTimer) (now : Nat) : String :=
  match s.starttime with
  | some v => fmtSecs 1 (now - v)
  | none => fmtSecs 3 s.lasttime

/-- A string of the shape `<digits>.<p digits>`: a nonempty run of decimal
digits, a dot, then exactly `p` decimal digits. -/
def decimalPattern (p : Nat) (str : String) : Prop :=
  ∃ intPart fracPart : List Char,
    str.data = intPart ++ '.' :: fracPart ∧ intPart ≠ [] ∧
    (∀ c ∈ intPart, c.isDigit = true) ∧ fracPart.length = p ∧
    ∀ c ∈ fracPart, c.isDigit = true

lemma startInv_space_press (s : CubeTimer) (now : Nat) :
    startInv (space_press s now) := by
  cases hon : s.«on» <;>
    simp [startInv, space_press, hon, timer_on, timer_off]

lemma startInv_toggles (s : CubeTimer) (nows : List Nat) :
    startInv s → startInv (toggles s nows) := by
  induction nows generalizing s with
  | nil => exact fun h => h
  | cons a l ih => exact fun _ => ih _ (startInv_space_press s a)

/-- C4: the invariant `start_instant present ↔ running` holds for the state
produced by `default()` (which is stopped with zero last duration and no
start instant) and is preserved by every `space_press`, hence holds after
any sequence of toggles from the initial state. -/
theorem startInv_default_and_preserved :
    (CubeTimer.default.«on» = false ∧ CubeTimer.default.lasttime = 0 ∧
      CubeTimer.default.starttime = none ∧ startInv CubeTimer.default)
    ∧ (∀ (s : CubeTimer) (now : Nat), startInv s → startInv (space_press s now))
    ∧ (∀ nows : List Nat, startInv (toggles CubeTimer.default nows)) := by
  exact ⟨⟨rfl, rfl, rfl, by decide⟩,
    fun s now _ => startInv_space_press s now,
    fun nows => startInv_toggles _ nows (by decide)⟩

/-- Witness for `startInv_default_and_preserved` at a concrete state. -/
theorem startInv_default_and_preserved_witness :
    startInv (space_press CubeTimer.default 3) :=
  startInv_default_and_preserved.2.1 CubeTimer.default 3
    startInv_default_and_preserved.1.2.2.2

/-- C1: evaluation of `space_press` at the failing input.  Starting at
instant 2 and stopping at instant 7 performs the claimed state transitions
(`lasttime` becomes 5, `starttime` is cleared, `on` becomes false), but the
function yields only the successor state: in `src/timer.rs` its return type
is the unit type, so the stopped duration is not observable from the return
value as the caller in `src/ui/mod.rs` (which matches `Some`/`None` on it)
requires. -/
theorem space_press_returns_no_duration :
    space_press (space_press CubeTimer.default 2) 7 =
      { starttime := none, «on» := false, lasttime := 5 } := by
  decide

lemma digits10_ne_nil (n : Nat) : digits10 n ≠ [] := by
  rw [digits10]
  split <;> simp

lemma digits10_lt (n : Nat) : ∀ d ∈ digits10 n, d < 10 := by
  induction n using Nat.strong_induction_on with
  | _ n ih =>
    rw [digits10]
    split
    · rename_i h
      intro d hd
      simp at hd
      omega
    · rename_i h
      intro d hd
      rcases List.mem_append.mp hd with h1 | h2
      · exact ih (n / 10) (Nat.div_lt_self (by omega) (by omega)) d h1
      · simp at h2
        subst h2
        exact Nat.mod_lt _ (by norm_num)

lemma digits10_length_le : ∀ (n k : Nat), 1 ≤ k → n < 10 ^ k →
    (digits10 n).length ≤ k := by
  intro n
  induction n using Nat.strong_induction_on with
  | _ n ih =>
    intro k hk hn
    rw [digits10]
    split
    · simpa using hk
    · rename_i h
      have hk2 : 2 ≤ k := by
        by_contra hc
        have : k = 1 := by omega
        subst this
        simp at hn
        omega
      have hdiv : n / 10 < 10 ^ (k - 1) := by
        have h10 : (10 : Nat) ^ k = 10 ^ (k - 1) * 10 := by
          rw [← pow_succ]
          congr 1
          omega
        rw [Nat.div_lt_iff_lt_mul (by norm_num)]
        omega
      have := ih (n / 10) (Nat.div_lt_self (by omega) (by omega)) (k - 1)
        (by omega) hdiv
      simp only [List.length_append, List.length_cons, List.length_nil]
      omega

lemma digitChar_isDigit {d : Nat} (h : d < 10) :
    (digitChar d).isDigit = true := by
  interval_cases d <;> decide

lemma pattern_of_parts (p a b : Nat) (hp1 : 1 ≤ p) (hb : b < 10 ^ p) :
    decimalPattern p (String.mk ((digits10 a).map digitChar) ++ "." ++
      String.mk ((List.replicate (p - (digits10 b).length) 0 ++
        digits10 b).map digitChar)) := by
  refine ⟨(digits10 a).map digitChar,
    (List.replicate (p - (digits10 b).length) 0 ++ digits10 b).map digitChar,
    ?_, by simp [digits10_ne_nil], ?_, ?_, ?_⟩
  · show (List.map digitChar (digits10 a) ++ ['.']) ++ _ = _
    simp
  · intro c hc
    obtain ⟨d, hd, rfl⟩ := List.mem_map.mp hc
    exact digitChar_isDigit (digits10_lt _ d hd)
  · rw [List.length_map, List.length_append, List.length_replicate]
    have := digits10_length_le b p hp1 hb
    omega
  · intro c hc
    obtain ⟨d, hd, rfl⟩ := List.mem_map.mp hc
    rcases List.mem_append.mp hd with h1 | h2
    · have : d = 0 := List.eq_of_mem_replicate h1
      subst this
      decide
    · exact digitChar_isDigit (digits10_lt _ d h2)

lemma fmtSecs_pattern (p nanos : Nat) (hp1 : 1 ≤ p) :
    decimalPattern p (fmtSecs p nanos) :=
  pattern_of_parts p _ _ hp1
    (Nat.mod_lt _ (Nat.pos_pow_of_pos _ (by norm_num)))

/-- C7: for every well-formed stopwatch state, the displayed text matches
the pattern `<digits>.<1 digit>` while the timer is running (live elapsed
time to one decimal place) and `<digits>.<3 digits>` while it is stopped
(`lasttime` to three decimal places). -/
theorem display_text_precision (s : CubeTimer) (now : Nat)
    (hinv : startInv s) :
    (s.«on» = true → decimalPattern 1 (text s now))
    ∧ (s.«on» = false → decimalPattern 3 (text s now)) := by
  cases hst : s.starttime with
  | some v =>
    have hon : s.«on» = true := by
      rw [startInv, hst] at hinv
      simpa using hinv.symm
    refine ⟨fun _ => ?_, fun hf => by rw [hon] at hf; cases hf⟩
    unfold text
    rw [hst]
    exact fmtSecs_pattern 1 _ (by norm_num)
  | none =>
    have hon : s.«on» = false := by
      rw [startInv, hst] at hinv
      simpa using hinv.symm
    refine ⟨fun ht => (by rw [hon] at ht; cases ht), fun _ => ?_⟩
    unfold text
    rw [hst]
    exact fmtSecs_pattern 3 _ (by norm_num)

/-- Witness for `display_text_precision` at the initial stopped state. -/
theorem display_text_precision_witness :
    decimalPattern 3 (text CubeTimer.default 0) :=
  (display_text_precision CubeTimer.default 0 (by decide)).2 rfl

lemma lastN_length {n : Nat} {l : List ℚ} (h : n ≤ l.length) :
    (lastN n l).length = n := by
  simp [lastN]
  omega

lemma le_getLast_of_sorted :
    ∀ (l : List ℚ) (h : l ≠ []), l.Sorted (· ≤ ·) → ∀ a ∈ l, a ≤ l.getLast h := by
  intro l
  induction l with
  | nil => intro h; exact absurd rfl h
  | cons x t ih =>
    intro h hs a ha
    cases t with
    | nil => simp at ha; simp [ha]
    | cons y r =>
      rw [List.getLast_cons (by simp)]
      rcases List.mem_cons.mp ha with rfl | hat
      · exact List.rel_of_sorted_cons hs _ (List.getLast_mem (by simp))
      · exact ih (by simp) hs.of_cons a hat

lemma trimMean_eq {w : List ℚ} (hw : 3 ≤ w.length) :
    ∃ m M : ℚ, w.minimum = (m : WithTop ℚ) ∧ w.maximum = (M : WithBot ℚ) ∧
      trimMean w = (w.sum - m - M) / ((w.length : ℚ) - 2) := by
  have hperm : (w.insertionSort (· ≤ ·)).Perm w := List.perm_insertionSort _ w
  have hsorted : (w.insertionSort (· ≤ ·)).Sorted (· ≤ ·) :=
    List.sorted_insertionSort _ w
  have hlen : (w.insertionSort (· ≤ ·)).length = w.length := hperm.length_eq
  obtain ⟨a, t, hs⟩ : ∃ a t, w.insertionSort (· ≤ ·) = a :: t := by
    cases hc : w.insertionSort (· ≤ ·) with
    | nil =>
      rw [hc] at hlen
      simp at hlen
      omega
    | cons a t => exact ⟨a, t, rfl⟩
  rw [hs] at hperm hsorted hlen
  have htne : t ≠ [] := by
    intro he
    rw [he] at hlen
    simp at hlen
    omega
  have hsplit : t.dropLast ++ [t.getLast htne] = t := List.dropLast_append_getLast htne
  have hmem_iff : ∀ b, b ∈ w ↔ b ∈ a :: t := fun b => hperm.mem_iff.symm
  have hmin : w.minimum = (a : WithTop ℚ) := by
    rw [List.minimum_eq_coe_iff]
    refine ⟨(hmem_iff a).mpr (List.mem_cons_self a t), fun b hb => ?_⟩
    rcases List.mem_cons.mp ((hmem_iff b).mp hb) with rfl | hbt
    · exact le_refl b
    · exact List.rel_of_sorted_cons hsorted b hbt
  have hMt : t.getLast htne ∈ t := List.getLast_mem htne
  have hmax : w.maximum = (t.getLast htne : WithBot ℚ) := by
    rw [List.maximum_eq_coe_iff]
    refine ⟨(hmem_iff _).mpr (List.mem_cons_of_mem a hMt), fun b hb => ?_⟩
    rcases List.mem_cons.mp ((hmem_iff b).mp hb) with rfl | hbt
    · exact List.rel_of_sorted_cons hsorted _ hMt
    · exact le_getLast_of_sorted t htne hsorted.of_cons b hbt
  obtain ⟨M, hM⟩ : ∃ M, t.getLast htne = M := ⟨_, rfl⟩
  rw [hM] at hsplit hMt hmax
  have hsum : w.sum = a + (t.dropLast.sum + M) := by
    have h1 : (a :: t).sum = w.sum := hperm.sum_eq
    rw [← h1, List.sum_cons]
    congr 1
    conv_lhs => rw [← hsplit]
    rw [List.sum_append, List.sum_singleton]
  have hlen2 : t.dropLast.length = w.length - 2 := by
    have ht : t.length = w.length - 1 := by
      simp at hlen
      omega
    simp [List.length_dropLast, ht]
    omega
  refine ⟨a, M, hmin, hmax, ?_⟩
  rw [trimMean, hs, List.tail_cons, mean, hlen2, hsum]
  have h2 : 2 ≤ w.length := by omega
  have hcast : ((w.length - 2 : ℕ) : ℚ) = (w.length : ℚ) - 2 := by
    push_cast [Nat.cast_sub h2]
    ring
  rw [hcast]
  ring_nf

/-- C2 counterexample: for the prior times `[10, 12, 9, 11]` and the new
time `100`, the computed ao5 is `11` (the trimmed mean of
`[10, 11, 12]` after dropping the minimum `9` and the maximum `100`), not
`10.5` as the claim asserts. -/
theorem ao5_example_is_eleven_not_ten_and_half :
    (gen_stats 100 [⟨10, none, none⟩, ⟨12, none, none⟩, ⟨9, none, none⟩,
        ⟨11, none, none⟩]).ao5 = some 11 ∧ (11 : ℚ) ≠ 21 / 2 := by
  constructor
  · norm_num [gen_stats, aoN, lastN, trimMean, mean, List.insertionSort,
      List.orderedInsert]
  · norm_num

/-- C2 (amended): whenever the total number of times is at least `n`
(`n ∈ {5, 12}`), the computed average for the new record is the trimmed
mean of the window of the `n` most recent times including the new one:
one occurrence of the window's minimum and one of its maximum are dropped
and the remaining `n − 2` values are averaged; in particular, for the five
times `[10, 12, 9, 11, 100]` the resulting ao5 equals `11`. -/
theorem gen_stats_window_trimmed_mean :
    (∀ (prior : List SolveRecord) (t : ℚ) (n : Nat), n = 5 ∨ n = 12 →
        n ≤ prior.length + 1 →
        ∃ m M : ℚ,
          (lastN n (prior.map SolveRecord.time ++ [t])).minimum = (m : WithTop ℚ) ∧
          (lastN n (prior.map SolveRecord.time ++ [t])).maximum = (M : WithBot ℚ) ∧
          (if n = 5 then (gen_stats t prior).ao5 else (gen_stats t prior).ao12) =
            some (((lastN n (prior.map SolveRecord.time ++ [t])).sum - m - M) /
              ((n : ℚ) - 2)))
    ∧ (gen_stats 100 [⟨10, none, none⟩, ⟨12, none, none⟩, ⟨9, none, none⟩,
        ⟨11, none, none⟩]).ao5 = some 11 := by
  constructor
  · intro prior t n hn hle
    have hall : (prior.map SolveRecord.time ++ [t]).length = prior.length + 1 := by
      simp
    have hwlen : (lastN n (prior.map SolveRecord.time ++ [t])).length = n :=
      lastN_length (by omega)
    have h3 : 3 ≤ (lastN n (prior.map SolveRecord.time ++ [t])).length := by
      rw [hwlen]
      rcases hn with rfl | rfl <;> norm_num
    obtain ⟨m, M, hmin, hmax, heq⟩ := trimMean_eq h3
    refine ⟨m, M, hmin, hmax, ?_⟩
    rcases hn with rfl | rfl
    · have h5 : (gen_stats t prior).ao5 =
          some (trimMean (lastN 5 (prior.map SolveRecord.time ++ [t]))) := by
        simp only [gen_stats, aoN]
        rw [if_pos (by rw [hall]; omega)]
      rw [if_pos rfl, h5, heq, hwlen]
    · have h12 : (gen_stats t prior).ao12 =
          some (trimMean (lastN 12 (prior.map SolveRecord.time ++ [t]))) := by
        simp only [gen_stats, aoN]
        rw [if_pos (by rw [hall]; omega)]
      rw [if_neg (by norm_num), h12, heq, hwlen]
  · norm_num [gen_stats, aoN, lastN, trimMean, mean, List.insertionSort,
      List.orderedInsert]

/-- Witness for `gen_stats_window_trimmed_mean` at the concrete five-time
history. -/
theorem gen_stats_window_trimmed_mean_witness :
    ∃ m M : ℚ,
      (lastN 5 (([⟨10, none, none⟩, ⟨12, none, none⟩, ⟨9, none, none⟩,
          ⟨11, none, none⟩] : List SolveRecord).map SolveRecord.time ++ [100])).minimum =
        (m : WithTop ℚ) ∧
      (lastN 5 (([⟨10, none, none⟩, ⟨12, none, none⟩, ⟨9, none, none⟩,
          ⟨11, none, none⟩] : List SolveRecord).map SolveRecord.time ++ [100])).maximum =
        (M : WithBot ℚ) ∧
      (if (5 : Nat) = 5 then
          (gen_stats 100 [⟨10, none, none⟩, ⟨12, none, none⟩, ⟨9, none, none⟩,
            ⟨11, none, none⟩]).ao5
        else
          (gen_stats 100 [⟨10, none, none⟩, ⟨12, none, none⟩, ⟨9, none, none⟩,
            ⟨11, none, none⟩]).ao12) =
        some (((lastN 5 (([⟨10, none, none⟩, ⟨12, none, none⟩, ⟨9, none, none⟩,
          ⟨11, none, none⟩] : List SolveRecord).map SolveRecord.time ++ [100])).sum -
            m - M) / ((5 : ℚ) - 2)) :=
  gen_stats_window_trimmed_mean.1
    [⟨10, none, none⟩, ⟨12, none, none⟩, ⟨9, none, none⟩, ⟨11, none, none⟩]
    100 5 (Or.inl rfl) (by norm_num)

/-- C3: the average of a record appended when the total count `k`
(prior history plus the new time) is below the window size is absent, and
present as soon as the window is full: `ao5` is `none` iff `k < 5` and
`some` iff `k ≥ 5`, and likewise for `ao12` with 12. -/
theorem ao_present_iff_window_full (t : ℚ) (times : List SolveRecord) :
    ((gen_stats t times).ao5 = none ↔ times.length + 1 < 5)
    ∧ ((gen_stats t times).ao5.isSome = true ↔ 5 ≤ times.length + 1)
    ∧ ((gen_stats t times).ao12 = none ↔ times.length + 1 < 12)
    ∧ ((gen_stats t times).ao12.isSome = true ↔ 12 ≤ times.length + 1) := by
  simp only [gen_stats, aoN, List.length_append, List.length_map,
    List.length_singleton]
  refine ⟨?_, ?_, ?_, ?_⟩ <;> split <;> simp_all <;> omega

/-- Witness for `ao_present_iff_window_full` on the empty history. -/
theorem ao_present_iff_window_full_witness :
    (gen_stats 1 []).ao5 = none :=
  (ao_present_iff_window_full 1 []).1.mpr (by norm_num)

lemma run_iter_state_app (s : LoopState) (nowPoll : Nat) (ev : Option KeyCode)
    (nowKey nowTick : Nat) :
    (run_iter s nowPoll ev nowKey nowTick).state.app =
      (apply_input s.app ev nowKey).1 := by
  rcases happ : apply_input s.app ev nowKey with ⟨a, q⟩
  cases q with
  | true => simp [run_iter, happ]
  | false =>
    simp [run_iter, happ, on_tick, apply_ite]

lemma run_iter_timeout (s : LoopState) (nowPoll : Nat) (ev : Option KeyCode)
    (nowKey nowTick : Nat) :
    (run_iter s nowPoll ev nowKey nowTick).timeout =
      (checked_sub s.app.tick_rate (nowPoll - s.last_tick)).getD 0 := by
  rcases happ : apply_input s.app ev nowKey with ⟨a, q⟩
  cases q with
  | true => simp [run_iter, happ]
  | false =>
    simp [run_iter, happ, apply_ite]

lemma apply_input_tick_rate (a : App) (ev : Option KeyCode) (now : Nat) :
    (apply_input a ev now).1.tick_rate = a.tick_rate ∨
    (apply_input a ev now).1.tick_rate = from_millis 100 ∨
    (apply_input a ev now).1.tick_rate = from_millis 1000 := by
  cases ev with
  | none => exact Or.inl rfl
  | some key =>
    cases key <;> simp [apply_input, press_key]
    cases hon : a.timer.«on» <;> simp [toggle, hon]

/-- C5: in every reachable loop state the scheduler's tick rate is one of
the two allowed intervals, the fast 100 ms (set when a toggle starts the
timer) and the slow 1000 ms (the initial value, re-set when a toggle
completes a solve); no other key changes it. -/
theorem tick_rate_two_valued (s : LoopState) (h : Reachable s) :
    s.app.tick_rate = from_millis 100 ∨ s.app.tick_rate = from_millis 1000 := by
  induction h with
  | init now0 => exact Or.inr rfl
  | step nowPoll ev nowKey nowTick h hq ih =>
    rw [run_iter_state_app]
    rcases apply_input_tick_rate _ ev nowKey with he | he | he
    · rw [he]
      exact ih
    · exact Or.inl he
    · exact Or.inr he

/-- Witness for `tick_rate_two_valued` at the initial state. -/
theorem tick_rate_two_valued_witness :
    (⟨App.new (from_millis 1000), 0⟩ : LoopState).app.tick_rate =
        from_millis 100 ∨
      (⟨App.new (from_millis 1000), 0⟩ : LoopState).app.tick_rate =
        from_millis 1000 :=
  tick_rate_two_valued _ (Reachable.init 0)

/-- C6: under a monotone clock, the timeout handed to `event::poll` is
`tick_rate − (now − last_tick)` when that difference is non-negative and
zero otherwise; in particular it is never negative. -/
theorem poll_timeout_floored (s : LoopState) (nowPoll : Nat)
    (ev : Option KeyCode) (nowKey nowTick : Nat)
    (hmono : s.last_tick ≤ nowPoll) :
    (0 : ℤ) ≤ ((run_iter s nowPoll ev nowKey nowTick).timeout : ℤ)
    ∧ (((nowPoll - s.last_tick : Nat) : ℤ) ≤ (s.app.tick_rate : ℤ) →
        ((run_iter s nowPoll ev nowKey nowTick).timeout : ℤ) =
          (s.app.tick_rate : ℤ) - ((nowPoll : ℤ) - (s.last_tick : ℤ)))
    ∧ ((s.app.tick_rate : ℤ) < ((nowPoll - s.last_tick : Nat) : ℤ) →
        (run_iter s nowPoll ev nowKey nowTick).timeout = 0) := by
  rw [run_iter_timeout, checked_sub]
  split
  · refine ⟨by positivity, fun _ => ?_, fun hlt => ?_⟩
    · simp only [Option.getD_some]
      omega
    · omega
  · refine ⟨by positivity, fun hle => ?_, fun _ => rfl⟩
    omega

/-- Witness for `poll_timeout_floored` at a concrete state. -/
theorem poll_timeout_floored_witness :
    ((run_iter ⟨App.new (from_millis 1000), 2⟩ 7 none 7 7).timeout : ℤ) =
      (((⟨App.new (from_millis 1000), 2⟩ : LoopState).app.tick_rate : ℤ)) -
        ((7 : ℤ) - (2 : ℤ)) :=
  (poll_timeout_floored ⟨App.new (from_millis 1000), 2⟩ 7 none 7 7
    (by norm_num)).2.1 (by norm_num [App.new, from_millis])

lemma tick_last_ordering {tr : List Action}
    (htr : tr = [Action.draw] ∨ tr = [Action.draw, Action.input] ∨
      tr = [Action.draw, Action.tick] ∨
      tr = [Action.draw, Action.input, Action.tick]) :
    ∀ (i j : Nat) (a : Action), tr[i]? = some Action.tick → tr[j]? = some a →
      a ≠ Action.tick → j < i := by
  rcases htr with rfl | rfl | rfl | rfl <;>
  · intro i j a hi hj ha
    rcases i with _ | _ | _ | i <;> rcases j with _ | _ | _ | j <;>
      simp_all

/-- C8: in each iteration the heartbeat appears at most once in the trace
and strictly after every other phase (the redraw and the input handling);
when the iteration completes (no quit), the heartbeat fires exactly when
the time elapsed since `last_tick` has reached the tick rate as updated by
the input phase, in which case `last_tick` is reset to the current instant,
and otherwise `last_tick` is unchanged. -/
theorem heartbeat_once_ordered_gated (s : LoopState) (nowPoll : Nat)
    (ev : Option KeyCode) (nowKey nowTick : Nat) :
    ((run_iter s nowPoll ev nowKey nowTick).trace.count Action.tick ≤ 1)
    ∧ (∀ (i j : Nat) (a : Action),
        (run_iter s nowPoll ev nowKey nowTick).trace[i]? = some Action.tick →
        (run_iter s nowPoll ev nowKey nowTick).trace[j]? = some a →
        a ≠ Action.tick → j < i)
    ∧ ((run_iter s nowPoll ev nowKey nowTick).quit = false →
        ((Action.tick ∈ (run_iter s nowPoll ev nowKey nowTick).trace) ↔
          (apply_input s.app ev nowKey).1.tick_rate ≤ nowTick - s.last_tick))
    ∧ (Action.tick ∈ (run_iter s nowPoll ev nowKey nowTick).trace →
        (run_iter s nowPoll ev nowKey nowTick).state.last_tick = nowTick)
    ∧ ((run_iter s nowPoll ev nowKey nowTick).quit = false →
        Action.tick ∉ (run_iter s nowPoll ev nowKey nowTick).trace →
        (run_iter s nowPoll ev nowKey nowTick).state.last_tick =
          s.last_tick) := by
  cases ev with
  | none =>
    by_cases hcond : s.app.tick_rate ≤ nowTick - s.last_tick <;>
      simp only [run_iter, apply_input, if_true, if_false, hcond] <;>
      simp only [Bool.false_eq_true, if_false, if_true, ite_true, ite_false] <;>
      exact ⟨by simp, tick_last_ordering (by simp), by simp [apply_input, hcond],
        by simp, by simp⟩
  | some key =>
    rcases hpk : press_key s.app key nowKey with ⟨a, q⟩
    cases q with
    | true =>
      simp only [run_iter, apply_input, hpk]
      exact ⟨by simp, tick_last_ordering (by simp), by simp,
        by simp, by simp⟩
    | false =>
      by_cases hcond : a.tick_rate ≤ nowTick - s.last_tick <;>
        simp only [run_iter, apply_input, hpk, hcond] <;>
        simp only [Bool.false_eq_true, if_false, if_true, ite_true, ite_false] <;>
        exact ⟨by simp, tick_last_ordering (by simp),
          by simp [apply_input, hpk, hcond], by simp, by simp⟩

/-- Witness for `heartbeat_once_ordered_gated` at a concrete iteration. -/
theorem heartbeat_once_ordered_gated_witness :
    (run_iter ⟨App.new (from_millis 1000), 0⟩ 5 none 5 5).quit = false →
      Action.tick ∉ (run_iter ⟨App.new (from_millis 1000), 0⟩ 5 none 5 5).trace →
      (run_iter ⟨App.new (from_millis 1000), 0⟩ 5 none 5 5).state.last_tick =
        (⟨App.new (from_millis 1000), 0⟩ : LoopState).last_tick :=
  (heartbeat_once_ordered_gated ⟨App.new (from_millis 1000), 0⟩ 5 none 5 5).2.2.2.2

/-- C9: a completed toggle appends the new record (with its statistics
computed from the history as it existed before insertion) at the end of
the history, and every previously appended record is unchanged: each prior
index holds exactly the record it held before. -/
theorem append_preserves_prior_records (a : App) (now : Nat)
    (h : a.timer.«on» = true) :
    (press_key a KeyCode.space now).1.times =
      a.times ++ [gen_stats (as_secs (elapsed a.timer now)) a.times]
    ∧ ∀ i : Nat, i < a.times.length →
        (press_key a KeyCode.space now).1.times[i]? = a.times[i]? := by
  have ht : toggle a.timer now =
      (timer_off a.timer now, some (elapsed a.timer now)) := by
    rw [toggle, h]
  rw [press_key, ht]
  exact ⟨rfl, fun i hi => List.getElem?_append_left hi⟩

/-- Witness for `append_preserves_prior_records` on a running timer with
one prior record. -/
theorem append_preserves_prior_records_witness :
    (press_key ⟨⟨some 0, true, 0⟩, [⟨1, none, none⟩], from_millis 100⟩
        KeyCode.space 5).1.times[0]? =
      (⟨⟨some 0, true, 0⟩, [⟨1, none, none⟩], from_millis 100⟩ : App).times[0]? :=
  (append_preserves_prior_records
    ⟨⟨some 0, true, 0⟩, [⟨1, none, none⟩], from_millis 100⟩ 5 rfl).2 0
    (by decide)

/-- C10: every key other than space and `q` (Esc, Enter, `h`, `j`, `k`,
`l`, or an unmatched key) leaves the core state — timer, history and tick
rate — unchanged by the input step, and `q` makes the loop return at once:
the state is untouched, no record is appended, the tick rate is unchanged
and the heartbeat does not run in that iteration. -/
theorem non_toggle_keys_leave_core_unchanged (s : LoopState)
    (nowPoll nowKey nowTick : Nat) :
    (∀ key : KeyCode, key ≠ KeyCode.space → key ≠ KeyCode.q →
      press_key s.app key nowKey = (s.app, false))
    ∧ (run_iter s nowPoll (some KeyCode.q) nowKey nowTick).quit = true
    ∧ (run_iter s nowPoll (some KeyCode.q) nowKey nowTick).state.app = s.app
    ∧ (run_iter s nowPoll (some KeyCode.q) nowKey nowTick).state.last_tick =
        s.last_tick
    ∧ Action.tick ∉ (run_iter s nowPoll (some KeyCode.q) nowKey nowTick).trace := by
  refine ⟨fun key hks hkq => ?_, ?_, ?_, ?_, ?_⟩
  · cases key <;> simp_all [press_key]
  all_goals simp [run_iter, apply_input, press_key]

/-- Witness for `non_toggle_keys_leave_core_unchanged`: the Esc key leaves
the initial state unchanged. -/
theorem non_toggle_keys_leave_core_unchanged_witness :
    press_key (⟨App.new (from_millis 1000), 0⟩ : LoopState).app KeyCode.esc 4 =
      ((⟨App.new (from_millis 1000), 0⟩ : LoopState).app, false) :=
  (non_toggle_keys_leave_core_unchanged ⟨App.new (from_millis 1000), 0⟩
    3 4 5).1 KeyCode.esc (by decide) (by decide)

end CubeTui
